import Mathlib

/-!
Verification of the comment-stripping transducer `uncomment` from
`demo/uncomment.c` of the fsm repository.

The C function is a finite-state machine built from the `fsm.h` macros
(`fsmstate` blocks connected by `fsmgoto`, leaving the machine with
`fsmexit` on end-of-stream).  We embed it shallowly: the input stream is a
`List Char` consumed one character per `fgetc`, the output stream is the
returned `List Char` (characters in `fputc` order), and each `fsmstate`
block becomes one case of a structurally recursive function on the input
list.  End-of-stream (`fgetc == EOF`) is the empty list.
-/

namespace Uncomment

/-- States of the `uncomment` FSM, one constructor per `fsmstate` block
that performs a read.  The `START` state only jumps to `code` and the
`code_char` block neither reads nor loops, so `START` is inlined into the
top-level entry point and `code_char` into a helper function below.
The `escaped` state owns a local variable `quote`, set from the current
character `c` at entry (`quote = c;` in the source); we carry it in the
constructor. -/
inductive St where
  | code
  | slash
  | string
  | literal
  | escaped (quote : Char)
  | line_comment
  | block_comment
  | star
deriving DecidableEq, Repr

/-- Dispatch of the `code_char` block in `demo/uncomment.c`: after the
current character `c` is emitted, `fsmgoto(string)` if it is a double
quote, `fsmgoto(literal)` if a single quote, else `fsmgoto(code)`. -/
def code_char (c : Char) : St :=
  if c = '"' then .string
  else if c = '\'' then .literal
  else .code

/-- The `uncomment` FSM of `demo/uncomment.c`, state by state.
Each case transcribes one `fsmstate` block:

* `code`: read `c` (EOF exits); `/` defers to `slash`; otherwise the
  `code_char` block emits `c` and dispatches via `code_char`.
* `slash`: read `c`; `/` starts a line comment, `*` a block comment;
  otherwise emit the deferred `/` and fall into `code_char` with `c`.
* `string` and `literal`: read `c`; a backslash jumps to `escaped`
  (with `c`, the backslash itself, becoming its `quote` variable);
  otherwise emit `c`, and a matching delimiter returns to `code`.
* `escaped`: emit `quote`, read the next character (EOF exits after the
  emission), emit it, then `fsmgoto(string)` when `quote == '"'`,
  else `fsmgoto(literal)`.
* `line_comment`: read and discard until a newline jumps to `code`
  (the newline is not emitted) or EOF exits.
* `block_comment` and `star`: read and discard; `*` enters `star`, and
  from `star` a `/` closes the comment, anything else falls back to
  `block_comment`. -/
def uncomment : St → List Char → List Char
  | .code, [] => []
  | .code, c :: rest =>
      if c = '/' then uncomment .slash rest
      else c :: uncomment (code_char c) rest
  | .slash, [] => []
  | .slash, c :: rest =>
      if c = '/' then uncomment .line_comment rest
      else if c = '*' then uncomment .block_comment rest
      else '/' :: c :: uncomment (code_char c) rest
  | .string, [] => []
  | .string, c :: rest =>
      if c = '\\' then uncomment (.escaped c) rest
      else c :: (if c = '"' then uncomment .code rest else uncomment .string rest)
  | .literal, [] => []
  | .literal, c :: rest =>
      if c = '\\' then uncomment (.escaped c) rest
      else c :: (if c = '\'' then uncomment .code rest else uncomment .literal rest)
  | .escaped quote, [] => [quote]
  | .escaped quote, c :: rest =>
      quote :: c ::
        (if quote = '"' then uncomment .string rest else uncomment .literal rest)
  | .line_comment, [] => []
  | .line_comment, c :: rest =>
      if c = '\n' then uncomment .code rest else uncomment .line_comment rest
  | .block_comment, [] => []
  | .block_comment, c :: rest =>
      if c = '*' then uncomment .star rest else uncomment .block_comment rest
  | .star, [] => []
  | .star, c :: rest =>
      if c = '/' then uncomment .code rest else uncomment .block_comment rest

/-- The whole transducer (the spec calls it `strip`): start in the
`START` state, which immediately jumps to `code`, and run to
end-of-stream. -/
def strip (s : List Char) : List Char := uncomment .code s

/-- Step-indexed version of `uncomment`, used to state termination: every
transition of the C machine that does not exit performs exactly one
`fgetc`, so we charge one unit of fuel per character read.  `none` means
the fuel ran out before the machine reached end-of-stream. -/
def uncommentFuel : Nat → St → List Char → Option (List Char)
  | _, .escaped quote, [] => some [quote]
  | _, _, [] => some []
  | 0, _, _ :: _ => none
  | fuel + 1, .code, c :: rest =>
      if c = '/' then uncommentFuel fuel .slash rest
      else (uncommentFuel fuel (code_char c) rest).map (fun l => c :: l)
  | fuel + 1, .slash, c :: rest =>
      if c = '/' then uncommentFuel fuel .line_comment rest
      else if c = '*' then uncommentFuel fuel .block_comment rest
      else (uncommentFuel fuel (code_char c) rest).map (fun l => '/' :: c :: l)
  | fuel + 1, .string, c :: rest =>
      if c = '\\' then uncommentFuel fuel (.escaped c) rest
      else (if c = '"' then uncommentFuel fuel .code rest
            else uncommentFuel fuel .string rest).map (fun l => c :: l)
  | fuel + 1, .literal, c :: rest =>
      if c = '\\' then uncommentFuel fuel (.escaped c) rest
      else (if c = '\'' then uncommentFuel fuel .code rest
            else uncommentFuel fuel .literal rest).map (fun l => c :: l)
  | fuel + 1, .escaped quote, c :: rest =>
      (if quote = '"' then uncommentFuel fuel .string rest
       else uncommentFuel fuel .literal rest).map (fun l => quote :: c :: l)
  | fuel + 1, .line_comment, c :: rest =>
      if c = '\n' then uncommentFuel fuel .code rest
      else uncommentFuel fuel .line_comment rest
  | fuel + 1, .block_comment, c :: rest =>
      if c = '*' then uncommentFuel fuel .star rest
      else uncommentFuel fuel .block_comment rest
  | fuel + 1, .star, c :: rest =>
      if c = '/' then uncommentFuel fuel .code rest
      else uncommentFuel fuel .block_comment rest

/-- Characters the machine has read but not yet written when it sits in a
given state: the deferred `/` of the `slash` state, and the `quote`
character the `escaped` state emits unconditionally at entry.  Every other
state owes nothing to the output. -/
def pending : St → List Char
  | .slash => ['/']
  | .escaped quote => [quote]
  | _ => []

/-- Number of successful `fgetc` calls (characters actually consumed) a
run of `uncomment` performs from a given state on a given input.  The
branching mirrors `uncomment` exactly. -/
def reads : St → List Char → Nat
  | _, [] => 0
  | .code, c :: rest =>
      1 + (if c = '/' then reads .slash rest else reads (code_char c) rest)
  | .slash, c :: rest =>
      1 + (if c = '/' then reads .line_comment rest
           else if c = '*' then reads .block_comment rest
           else reads (code_char c) rest)
  | .string, c :: rest =>
      1 + (if c = '\\' then reads (.escaped c) rest
           else if c = '"' then reads .code rest else reads .string rest)
  | .literal, c :: rest =>
      1 + (if c = '\\' then reads (.escaped c) rest
           else if c = '\'' then reads .code rest else reads .literal rest)
  | .escaped quote, _ :: rest =>
      1 + (if quote = '"' then reads .string rest else reads .literal rest)
  | .line_comment, c :: rest =>
      1 + (if c = '\n' then reads .code rest else reads .line_comment rest)
  | .block_comment, c :: rest =>
      1 + (if c = '*' then reads .star rest else reads .block_comment rest)
  | .star, c :: rest =>
      1 + (if c = '/' then reads .code rest else reads .block_comment rest)

/-- The `code_char` block never leaves the machine with unemitted input. -/
lemma pending_code_char (c : Char) : pending (code_char c) = [] := by
  unfold code_char
  split
  · rfl
  · split <;> rfl

/-- Fuel equal to the length of the remaining input always suffices: the
step-indexed machine finishes with `some` result, and that result is the
one the direct recursion computes. -/
lemma uncommentFuel_spec :
    ∀ (s : List Char) (st : St),
      uncommentFuel s.length st s = some (uncomment st s) := by
  intro s
  induction s with
  | nil => intro st; cases st <;> rfl
  | cons c rest ih =>
      intro st
      cases st with
      | code =>
          by_cases h : c = '/' <;> simp [uncommentFuel, uncomment, h, ih]
      | slash =>
          by_cases h : c = '/'
          · simp [uncommentFuel, uncomment, h, ih]
          · by_cases h2 : c = '*' <;> simp [uncommentFuel, uncomment, h, h2, ih]
      | string =>
          by_cases h : c = '\\'
          · simp [uncommentFuel, uncomment, h, ih]
          · by_cases h2 : c = '"' <;> simp [uncommentFuel, uncomment, h, h2, ih]
      | literal =>
          by_cases h : c = '\\'
          · simp [uncommentFuel, uncomment, h, ih]
          · by_cases h2 : c = '\'' <;> simp [uncommentFuel, uncomment, h, h2, ih]
      | escaped q =>
          by_cases h : q = '"' <;> simp [uncommentFuel, uncomment, h, ih]
      | line_comment =>
          by_cases h : c = '\n' <;> simp [uncommentFuel, uncomment, h, ih]
      | block_comment =>
          by_cases h : c = '*' <;> simp [uncommentFuel, uncomment, h, ih]
      | star =>
          by_cases h : c = '/' <;> simp [uncommentFuel, uncomment, h, ih]

/-- Every state consumes exactly one character per step until the input
is exhausted, so a run from any state performs exactly one read per input
character. -/
lemma reads_eq_length :
    ∀ (s : List Char) (st : St), reads st s = s.length := by
  intro s
  induction s with
  | nil => intro st; cases st <;> rfl
  | cons c rest ih =>
      intro st
      cases st <;> simp [reads, ih] <;> omega

/-- Output is always a sublist of the pending characters followed by the
remaining input: every emitted character was read, in order, and each
read character is emitted at most once. -/
lemma uncomment_sublist :
    ∀ (s : List Char) (st : St),
      List.Sublist (uncomment st s) (pending st ++ s) := by
  intro s
  induction s with
  | nil =>
      intro st
      cases st <;> simp [uncomment, pending]
  | cons c rest ih =>
      intro st
      cases st with
      | code =>
          by_cases h : c = '/'
          · subst h
            simpa [uncomment, pending] using ih .slash
          · have h2 := ih (code_char c)
            rw [pending_code_char] at h2
            simpa [uncomment, pending, h] using h2.cons₂ c
      | slash =>
          by_cases h : c = '/'
          · subst h
            have h2 := ih .line_comment
            simp only [pending, List.nil_append] at h2
            simpa [uncomment, pending] using (h2.cons '/').cons '/'
          · by_cases h3 : c = '*'
            · subst h3
              have h2 := ih .block_comment
              simp only [pending, List.nil_append] at h2
              simpa [uncomment, pending, h] using (h2.cons '*').cons '/'
            · have h2 := ih (code_char c)
              rw [pending_code_char] at h2
              simpa [uncomment, pending, h, h3] using (h2.cons₂ c).cons₂ '/'
      | string =>
          by_cases h : c = '\\'
          · subst h
            simpa [uncomment, pending] using ih (.escaped '\\')
          · by_cases h2 : c = '"'
            · subst h2
              have h3 := ih .code
              simp only [pending, List.nil_append] at h3
              simpa [uncomment, pending] using h3.cons₂ '"'
            · have h3 := ih .string
              simp only [pending, List.nil_append] at h3
              simpa [uncomment, pending, h, h2] using h3.cons₂ c
      | literal =>
          by_cases h : c = '\\'
          · subst h
            simpa [uncomment, pending] using ih (.escaped '\\')
          · by_cases h2 : c = '\''
            · subst h2
              have h3 := ih .code
              simp only [pending, List.nil_append] at h3
              simpa [uncomment, pending] using h3.cons₂ '\''
            · have h3 := ih .literal
              simp only [pending, List.nil_append] at h3
              simpa [uncomment, pending, h, h2] using h3.cons₂ c
      | escaped q =>
          by_cases h : q = '"'
          · subst h
            have h3 := ih .string
            simp only [pending, List.nil_append] at h3
            simpa [uncomment, pending] using (h3.cons₂ c).cons₂ '"'
          · have h3 := ih .literal
            simp only [pending, List.nil_append] at h3
            simpa [uncomment, pending, h] using (h3.cons₂ c).cons₂ q
      | line_comment =>
          by_cases h : c = '\n'
          · subst h
            have h3 := ih .code
            simp only [pending, List.nil_append] at h3
            simpa [uncomment, pending] using h3.cons '\n'
          · have h3 := ih .line_comment
            simp only [pending, List.nil_append] at h3
            simpa [uncomment, pending, h] using h3.cons c
      | block_comment =>
          by_cases h : c = '*'
          · subst h
            have h3 := ih .star
            simp only [pending, List.nil_append] at h3
            simpa [uncomment, pending] using h3.cons '*'
          · have h3 := ih .block_comment
            simp only [pending, List.nil_append] at h3
            simpa [uncomment, pending, h] using h3.cons c
      | star =>
          by_cases h : c = '/'
          · subst h
            have h3 := ih .code
            simp only [pending, List.nil_append] at h3
            simpa [uncomment, pending] using h3.cons '/'
          · have h3 := ih .block_comment
            simp only [pending, List.nil_append] at h3
            simpa [uncomment, pending, h] using h3.cons c

/-- Text free of `/`, `"` and `'` passes through the `code` state
verbatim, whatever follows it. -/
lemma uncomment_code_append (t : List Char) :
    ∀ (s : List Char), (∀ c ∈ s, c ≠ '/' ∧ c ≠ '"' ∧ c ≠ '\'') →
      uncomment .code (s ++ t) = s ++ uncomment .code t := by
  intro s
  induction s with
  | nil => intro _; rfl
  | cons c rest ih =>
      intro h
      obtain ⟨h1, h2, h3⟩ := h c (List.mem_cons_self c rest)
      have hrest : ∀ d ∈ rest, d ≠ '/' ∧ d ≠ '"' ∧ d ≠ '\'' :=
        fun d hd => h d (List.mem_cons_of_mem c hd)
      simp [uncomment, h1, code_char, h2, h3, ih hrest]

/-- Contents of a string literal that avoid the delimiter and the
backslash are copied verbatim up to and including the closing quote. -/
lemma uncomment_string_content (t : List Char) :
    ∀ (l : List Char), (∀ c ∈ l, c ≠ '"' ∧ c ≠ '\\') →
      uncomment .string (l ++ '"' :: t) = l ++ '"' :: uncomment .code t := by
  intro l
  induction l with
  | nil => intro _; simp [uncomment]
  | cons c rest ih =>
      intro h
      obtain ⟨h1, h2⟩ := h c (List.mem_cons_self c rest)
      have hrest : ∀ d ∈ rest, d ≠ '"' ∧ d ≠ '\\' :=
        fun d hd => h d (List.mem_cons_of_mem c hd)
      simp [uncomment, h1, h2, ih hrest]

/-- Contents of a character literal that avoid the delimiter and the
backslash are copied verbatim up to and including the closing quote. -/
lemma uncomment_literal_content (t : List Char) :
    ∀ (l : List Char), (∀ c ∈ l, c ≠ '\'' ∧ c ≠ '\\') →
      uncomment .literal (l ++ '\'' :: t) = l ++ '\'' :: uncomment .code t := by
  intro l
  induction l with
  | nil => intro _; simp [uncomment]
  | cons c rest ih =>
      intro h
      obtain ⟨h1, h2⟩ := h c (List.mem_cons_self c rest)
      have hrest : ∀ d ∈ rest, d ≠ '\'' ∧ d ≠ '\\' :=
        fun d hd => h d (List.mem_cons_of_mem c hd)
      simp [uncomment, h1, h2, ih hrest]

/-- C1: the claim says the `escaped` state returns to exactly the literal
state that produced it (`string` for a string literal).  In the source,
`quote = c;` runs when `c` is already the backslash that triggered the
escape, so `quote` is always a backslash, `quote == '"'` is never true,
and every escape — including one inside a string literal — resumes in the
`literal` (character-literal) state.  Consequently, on the failing input
a string literal is never closed by its `"` and the trailing `//` comment
survives: the output equals the input. -/
theorem c1_escape_always_resumes_in_char_literal :
    (∀ (c : Char) (rest : List Char),
      uncomment .string ('\\' :: c :: rest) = '\\' :: c :: uncomment .literal rest) ∧
    strip "\"\\q\"//x".toList = "\"\\q\"//x".toList := by
  constructor
  · intro c rest
    simp [uncomment]
  · decide

/-- C2 counterexample: the `line_comment` state of the source contains no
`fputc`, so the terminating newline is discarded, not emitted; the claimed
equality `strip "a//comment\nb" = "a\nb"` is false. -/
theorem c2_newline_not_preserved_counterexample :
    ¬ (strip "a//comment\nb".toList = "a\nb".toList) := by
  decide

/-- C2 amended: in the `line_comment` state, a newline returns the
machine to `code` but is itself discarded (nothing is emitted), so
`strip "a//comment\nb" = "ab"`. -/
theorem c2_line_comment_discards_newline :
    (∀ rest : List Char,
      uncomment .line_comment ('\n' :: rest) = uncomment .code rest) ∧
    strip "a//comment\nb".toList = "ab".toList := by
  constructor
  · intro rest
    simp [uncomment]
  · decide

/-- C3: on the claimed input the escaped quote puts the machine into the
`literal` state (see C1), the closing `"` no longer terminates the string,
and the `// c` comment is not removed: the source returns the 16-character
input unchanged rather than the 12-character output the claim states. -/
theorem c3_escaped_quote_input_passes_unchanged :
    strip "x = \"a\\\"b\"; // c".toList = "x = \"a\\\"b\"; // c".toList ∧
    ¬ (strip "x = \"a\\\"b\"; // c".toList = "x = \"a\\\"b\"; ".toList) :=
  ⟨by decide, by decide⟩

/-- C4: the machine terminates on every finite input — fuel equal to the
input length always suffices and the step-indexed run returns `some`
result (never a fault), the result of the direct recursion; and an
unterminated block comment at end-of-stream leaves exactly the text
emitted before the opener. -/
theorem c4_terminates_without_fault :
    (∀ (st : St) (s : List Char),
      uncommentFuel s.length st s = some (uncomment st s)) ∧
    strip "code /* unterminated".toList = "code ".toList :=
  ⟨fun st s => uncommentFuel_spec s st, by decide⟩

/-- C5: in the `slash` state a character that is neither `/` nor `*`
makes the machine emit the deferred `/` and then handle the character
exactly as the `code` state would: a double quote opens a string literal,
a single quote opens a character literal, anything else stays in `code`;
division is therefore not treated as a comment. -/
theorem c5_slash_redispatches_as_code :
    (∀ (c : Char) (rest : List Char), c ≠ '/' → c ≠ '*' →
      uncomment .slash (c :: rest) = '/' :: uncomment .code (c :: rest)) ∧
    (∀ rest : List Char,
      uncomment .slash ('"' :: rest) = '/' :: '"' :: uncomment .string rest) ∧
    (∀ rest : List Char,
      uncomment .slash ('\'' :: rest) = '/' :: '\'' :: uncomment .literal rest) ∧
    strip "a/b".toList = "a/b".toList := by
  refine ⟨?_, ?_, ?_, by decide⟩
  · intro c rest h1 h2
    simp [uncomment, h1, h2]
  · intro rest
    simp [uncomment, code_char]
  · intro rest
    simp [uncomment, code_char]

/-- C5 witness: the general re-dispatch fact instantiated at the
character `b` of the input `a/b`. -/
theorem c5_slash_redispatches_as_code_witness :
    uncomment .slash ('b' :: []) = '/' :: uncomment .code ('b' :: []) ∧
    strip "a/b".toList = "a/b".toList :=
  ⟨c5_slash_redispatches_as_code.1 'b' [] (by decide) (by decide),
   c5_slash_redispatches_as_code.2.2.2⟩

/-- C6: strip is the identity on text containing no `/`, no `"` and no
`'`: such text never leaves the `code` state and every character is
emitted as read. -/
theorem c6_identity_on_plain_text (s : List Char)
    (h : ∀ c ∈ s, c ≠ '/' ∧ c ≠ '"' ∧ c ≠ '\'') : strip s = s := by
  have h2 := uncomment_code_append [] s h
  simpa [strip, uncomment] using h2

/-- C6 witness: the identity at a concrete comment-free, literal-free
string. -/
theorem c6_identity_on_plain_text_witness :
    strip "int x = y + 1;\n".toList = "int x = y + 1;\n".toList :=
  c6_identity_on_plain_text "int x = y + 1;\n".toList (by decide)

/-- C7: literal contents (free of the closing delimiter and of the
backslash) are copied byte-for-byte together with their delimiters, for
string literals and character literals alike; comment markers inside a
literal are inert, as on the concrete input. -/
theorem c7_literal_contents_preserved :
    (∀ (l t : List Char), (∀ c ∈ l, c ≠ '"' ∧ c ≠ '\\') →
      uncomment .string (l ++ '"' :: t) = l ++ '"' :: uncomment .code t) ∧
    (∀ (l t : List Char), (∀ c ∈ l, c ≠ '\'' ∧ c ≠ '\\') →
      uncomment .literal (l ++ '\'' :: t) = l ++ '\'' :: uncomment .code t) ∧
    strip "s = \"/* not a comment */\";".toList =
      "s = \"/* not a comment */\";".toList :=
  ⟨fun l t h => uncomment_string_content t l h,
   fun l t h => uncomment_literal_content t l h,
   by decide⟩

/-- C7 witness: the string-literal clause instantiated on the literal
body of the concrete example. -/
theorem c7_literal_contents_preserved_witness :
    uncomment .string ("/* not a comment */".toList ++ '"' :: []) =
      "/* not a comment */".toList ++ '"' :: uncomment .code [] :=
  c7_literal_contents_preserved.1 "/* not a comment */".toList [] (by decide)

/-- C8: end-of-stream in the `slash` state discards the deferred `/`
without emitting it; in particular, appending a lone `/` to comment-free,
literal-free text leaves the output without that final slash. -/
theorem c8_trailing_slash_dropped :
    uncomment .slash [] = [] ∧
    (∀ s : List Char, (∀ c ∈ s, c ≠ '/' ∧ c ≠ '"' ∧ c ≠ '\'') →
      strip (s ++ ['/']) = s) ∧
    strip "ab/".toList = "ab".toList := by
  refine ⟨rfl, ?_, by decide⟩
  intro s h
  have h2 := uncomment_code_append ['/'] s h
  have h3 : uncomment St.code ['/'] = [] := by decide
  simp only [strip]
  rw [h2, h3, List.append_nil]

/-- C8 witness: the general trailing-slash fact at the concrete prefix
`ab`. -/
theorem c8_trailing_slash_dropped_witness :
    strip ("ab".toList ++ ['/']) = "ab".toList :=
  c8_trailing_slash_dropped.2.1 "ab".toList (by decide)

/-- C9: a run from any state performs exactly one read per input
character (no character read twice, none skipped), and the output is a
sublist of the pending characters followed by the input — every emitted
character is a read character, in input order, and each read character is
either emitted once or discarded. -/
theorem c9_each_char_read_once_and_accounted :
    (∀ (st : St) (s : List Char), reads st s = s.length) ∧
    (∀ (st : St) (s : List Char),
      List.Sublist (uncomment st s) (pending st ++ s)) ∧
    (∀ s : List Char, List.Sublist (strip s) s) :=
  ⟨fun st s => reads_eq_length s st,
   fun st s => uncomment_sublist s st,
   fun s => uncomment_sublist s .code⟩

/-- C10: a backslash read in the `literal` state emits the backslash and
the following character unconditionally — even when that character is a
single quote — and resumes in `literal`, so an escaped single quote does
not terminate the character literal; the `//` comment after the concrete
character literal is still stripped. -/
theorem c10_char_literal_escape_resumes :
    (∀ (c : Char) (rest : List Char),
      uncomment .literal ('\\' :: c :: rest) = '\\' :: c :: uncomment .literal rest) ∧
    (∀ rest : List Char,
      uncomment .literal ('\\' :: '\'' :: rest) =
        '\\' :: '\'' :: uncomment .literal rest) ∧
    strip "t = '\\'';//x".toList = "t = '\\'';".toList := by
  refine ⟨?_, ?_, by decide⟩
  · intro c rest
    simp [uncomment]
  · intro rest
    simp [uncomment]

end Uncomment
